import Mathlib

/-!
Shallow embedding of the resolver in `crates/puffin-resolve/src/lib.rs`.

The resolver is an asynchronous worklist loop: root requirements are seeded
as package-listing fetch requests; responses are delivered in arbitrary
batches; a `Package` response selects at most one candidate wheel and emits
a metadata (`Version`) fetch; a `Version` response finalizes the package
into the resolution and enqueues its dependency edges, deduplicated against
the resolution map and the in-flight set.

External collaborators (index client, filename/version parsing, platform
tag compatibility, name normalization, marker evaluation) are out of scope
for the crate and are modelled as function-valued fields of a `World`
record; the resolver consumes them as black boxes, exactly as the source
does.  Versions are `Nat`, version specifiers are arbitrary predicates on
versions, marker expressions are arbitrary predicates over the marker
environment and active extras.

Scheduling nondeterminism (which pending fetches complete, and in which
order they appear inside an arrival batch) is made explicit: the executable
`resolve` takes a schedule (one selection mask per loop iteration), and the
relational layer (`Step`/`Reach`) quantifies over every possible batch
selection and batch order, so safety theorems cover all arrival orders.
-/

namespace PuffinResolve

abbrev Err := String

/-- Stand-in for `pep440_rs::Version` (external, totally ordered). -/
abbrev Version := Nat

/-- Stand-in for one clause of a `pep440_rs` version specifier: an arbitrary
predicate on versions (`specifier.contains(&version)`). -/
abbrev Specifier := Version → Bool

/-- Stand-in for `pep508_rs::MarkerEnvironment` (opaque to the resolver). -/
abbrev MarkerEnv := List (String × String)

/-- Stand-in for the active platform tag set `puffin_platform::tags::Tags`. -/
abbrev Tags := List String

/-- `pep508_rs::VersionOrUrl`: a version specifier set or a direct URL. -/
inductive VersionOrUrl where
  | versionSpecifier (specs : List Specifier)
  | url (u : String)

/-- `pep508_rs::Requirement`: name, optional extras, optional version
specifier or URL, optional marker expression.  The marker expression is
modelled as the evaluation function the external marker evaluator would
give it: `MarkerEnv → extras → Bool`. -/
structure Requirement where
  name : String
  extras : Option (List String)
  version_or_url : Option VersionOrUrl
  marker : Option (MarkerEnv → List String → Bool)

/-- `Requirement::evaluate_markers` (external `pep508_rs`): a requirement
with no marker always applies; otherwise the marker is evaluated against
the environment and active extras. -/
def Requirement.evaluate_markers (r : Requirement) (env : MarkerEnv)
    (extras : List String) : Bool :=
  match r.marker with
  | none => true
  | some m => m env extras

/-- `puffin_client::File`: one candidate file descriptor in an index
listing.  Only the filename is inspected by the resolver; the url field
keeps distinct files distinguishable as metadata-fetch keys. -/
structure File where
  filename : String
  url : String
deriving DecidableEq

/-- `puffin_package::wheel::WheelFilename` (external parse result): the
fields the resolver reads — the version component (a string, later parsed
as a `Version`) and the encoded compatibility tags. -/
structure WheelFilename where
  version : String
  tags : List String
deriving DecidableEq

/-- `puffin_package::metadata::Metadata21`: the metadata document for one
chosen file — its version and its declared dependencies. -/
structure Metadata21 where
  version : Version
  requires_dist : List Requirement

/-- `Request` (source lines 162–166): a listing fetch for a requirement, or
a metadata fetch for a chosen file. -/
inductive Request where
  | package (r : Requirement)
  | version (r : Requirement) (f : File)

/-- The fixed index state, environment, platform tags, and the external
collaborator functions, all constant for one run of `resolve`. -/
structure World where
  /-- `pypi_client.simple(name)`: index listing for a (raw) package name. -/
  listing : String → Except Err (List File)
  /-- `pypi_client.file(file)`: metadata document for a candidate file. -/
  metadata : File → Except Err Metadata21
  /-- the `MarkerEnvironment` passed to `resolve`. -/
  markers : MarkerEnv
  /-- the platform `Tags` passed to `resolve`. -/
  tags : Tags
  /-- `PackageName::normalize` (external). -/
  normalize : String → String
  /-- `WheelFilename::from_str` (external): `none` = unparsable. -/
  parseWheel : String → Option WheelFilename
  /-- `Version::from_str` (external): `none` = unparsable. -/
  parseVersion : String → Option Version
  /-- `WheelFilename::is_compatible(tags)` (external). -/
  is_compatible : WheelFilename → Tags → Bool

/-- The resolution map (source line 20, `HashMap<PackageName, Version>`),
modelled as an association list on normalized names. -/
abbrev Resolution := List (String × Version)

/-- Association-list lookup, the observation function of a `HashMap`. -/
def resLookup (n : String) : Resolution → Option Version
  | [] => none
  | (m, v) :: rest => if m = n then some v else resLookup n rest

/-- `HashMap::insert`: replace the binding if the key is present, add it
otherwise (source line 124). -/
def resInsert (n : String) (v : Version) : Resolution → Resolution
  | [] => [(n, v)]
  | (m, w) :: rest => if m = n then (m, v) :: rest else (m, w) :: resInsert n v rest

/-- Mutable state of one resolution run: the requests sent but not yet
processed, the in-flight name set (source line 66), and the resolution map
(source line 74). -/
structure State where
  pending : List Request
  inFlight : List String
  resolution : Resolution

/-- Source lines 82–89: extract the version specifiers of a requirement.
A direct URL (`VersionOrUrl::Url`) and an absent field both give `none`. -/
def reqSpecifiers (r : Requirement) : Option (List Specifier) :=
  match r.version_or_url with
  | none => none
  | some (.versionSpecifier specs) => some specs
  | some (.url _) => none

/-- Source lines 106–108: `specifiers.iter().all(|s| s.contains(&version))`
on an `Option` — an absent specifier set accepts every version. -/
def specifiersAll (specs : Option (List Specifier)) (v : Version) : Bool :=
  match specs with
  | none => true
  | some ss => ss.all fun s => s v

/-- Source lines 92–109, the closure passed to `find`: a candidate file
qualifies iff its filename parses as a wheel, the wheel's version string
parses as a version, its tags are compatible with the active tag set, and
the parsed version satisfies every specifier clause. -/
def fileQualifies (w : World) (specs : Option (List Specifier)) (f : File) : Bool :=
  match w.parseWheel f.filename with
  | none => false
  | some name =>
    match w.parseVersion name.version with
    | none => false
    | some version =>
      if !(w.is_compatible name w.tags) then false
      else specifiersAll specs version

/-- Source line 92: `metadata.files.iter().rev().find(...)` — scan the
listing in reverse order, return the first qualifying candidate. -/
def selectFile (w : World) (specs : Option (List Specifier)) (files : List File) :
    Option File :=
  files.reverse.find? (fileQualifies w specs)

/-- Source lines 127–149: enqueue one dependency edge of a finalized
requirement `r`: skip it if its marker fails, or its normalized name is
already pinned in the resolution, or already in flight; otherwise insert
it into the in-flight set and emit a `Package` request. -/
def enqueueDep (w : World) (r : Requirement) (st : State) (dep : Requirement) : State :=
  if !(dep.evaluate_markers w.markers (r.extras.getD [])) then st
  else
    let normalized_name := w.normalize dep.name
    if (resLookup normalized_name st.resolution).isSome then st
    else if normalized_name ∈ st.inFlight then st
    else { st with
            inFlight := normalized_name :: st.inFlight,
            pending := st.pending ++ [Request.package dep] }

/-- Processing of one response (source lines 79–151).  The fetch result for
the request is looked up in the (fixed) world at processing time; a fetch
error aborts with that error (`result?`, line 78).
  - `Package` response: select a candidate; none ⇒ the requirement is
    dropped silently (lines 109–111); some ⇒ emit the `Version` request
    (line 113).
  - `Version` response: remove the normalized name from the in-flight set,
    insert it into the resolution (lines 122–124), then enqueue each
    dependency edge (lines 127–149). -/
def stepReq (w : World) (st : State) (req : Request) : Except Err State :=
  match req with
  | .package r =>
    match w.listing r.name with
    | .error e => .error e
    | .ok files =>
      match selectFile w (reqSpecifiers r) files with
      | none => .ok st
      | some file => .ok { st with pending := st.pending ++ [Request.version r file] }
  | .version r _file =>
    match w.metadata _file with
    | .error e => .error e
    | .ok md =>
      let normalized_name := w.normalize r.name
      let st := { st with
                   inFlight := st.inFlight.erase normalized_name,
                   resolution := resInsert normalized_name md.version st.resolution }
      .ok (md.requires_dist.foldl (enqueueDep w r) st)

/-- One iteration of the seeding loop (source lines 67–71): emit a
`Package` request for the root and insert its normalized name into the
in-flight set (`HashSet::insert`, idempotent). -/
def seedStep (w : World) (st : State) (r : Requirement) : State :=
  { st with
     pending := st.pending ++ [Request.package r],
     inFlight := st.inFlight.insert (w.normalize r.name) }

/-- Seeding (source lines 66–71): start from the empty state and seed every
root requirement in order. -/
def seedState (w : World) (requirements : List Requirement) : State :=
  requirements.foldl (seedStep w) ⟨[], [], []⟩

/-- Process the responses of one arrival batch in order; the first fetch
error aborts the batch (source lines 77–78). -/
def processList (w : World) : List Request → State → Except Err State
  | [], st => .ok st
  | req :: qs, st =>
    match stepReq w st req with
    | .error e => .error e
    | .ok st' => processList w qs st'

/-- Outcome of a run under a finite schedule: a returned resolution, a
returned error, a hang (the loop awaits the next batch while no request is
outstanding and the channel can never produce one — source line 76 pends
forever), or schedule exhaustion mid-run. -/
inductive Outcome where
  | ok (res : Resolution)
  | err (e : Err)
  | hung (st : State)
  | fuel (st : State)

/-- Split the pending set into an arrival batch (mask true) and the
remaining pending requests (mask false), preserving order. -/
def maskExtract : List Request → List Bool → List Request × List Request
  | [], _ => ([], [])
  | l, [] => ([], l)
  | r :: l, b :: bs =>
    let p := maskExtract l bs
    if b then (r :: p.1, p.2) else (p.1, r :: p.2)

/-- The drain loop (source lines 76–157): await a batch (hang if no request
is outstanding), process it (a fetch error aborts the whole run with that
error), then stop and return the resolution exactly when the in-flight set
is empty. -/
def goLoop (w : World) : List (List Bool) → State → Outcome
  | [], st => .fuel st
  | sel :: rest, st =>
    if st.pending.isEmpty then .hung st
    else
      let p := maskExtract st.pending sel
      match processList w p.1 { st with pending := p.2 } with
      | .error e => .err e
      | .ok st' => if st'.inFlight.isEmpty then .ok st'.resolution else goLoop w rest st'

/-- `resolve` (source lines 29–160), made deterministic in an explicit
arrival schedule: seed the roots, then drain. -/
def resolve (w : World) (requirements : List Requirement) (sched : List (List Bool)) :
    Outcome :=
  goLoop w sched (seedState w requirements)

/-- Projection: the resolution of a successfully returned run. -/
def okRes : Outcome → Option Resolution
  | .ok res => some res
  | _ => none

/-- Projection: did the run return (either a resolution or an error)? -/
def outReturned : Outcome → Bool
  | .ok _ => true
  | .err _ => true
  | _ => false

/-- Projection: is the run hung awaiting a batch that can never arrive? -/
def isHung : Outcome → Bool
  | .hung _ => true
  | _ => false

/-- Projection: the resolution of a successful batch-processing result. -/
def okStateRes : Except Err State → Option Resolution
  | .ok st => some st.resolution
  | .error _ => none

/-- The fetch outcome a request will see when it is processed: `some e` iff
the corresponding index call fails. -/
def fetchErr (w : World) : Request → Option Err
  | .package r =>
    match w.listing r.name with
    | .error e => some e
    | .ok _ => none
  | .version _ f =>
    match w.metadata f with
    | .error e => some e
    | .ok _ => none

/-- Total version of `stepReq` for building explicit run prefixes: returns
the state unchanged on a fetch error. -/
def stepOk (w : World) (st : State) (req : Request) : State :=
  match stepReq w st req with
  | .ok st' => st'
  | .error _ => st

/-- The normalized package name a request is about. -/
def reqName (w : World) : Request → String
  | .package r => w.normalize r.name
  | .version r _ => w.normalize r.name

/-- One observable transition of the drain loop: either the arrival of a
batch (any sub-multiset of the outstanding requests, in any order — this is
the scheduling nondeterminism of `buffer_unordered` + `ready_chunks`), or
the processing of the next response of the current batch.  The pair
`(State, List Request)` is the resolver state together with the responses
of the current batch not yet processed. -/
inductive Step (w : World) : State → List Request → State → List Request → Prop
  | select (st : State) (batch pend' : List Request)
      (hperm : st.pending.Perm (batch ++ pend')) :
      Step w st [] { st with pending := pend' } batch
  | proc (st st' : State) (req : Request) (qs : List Request)
      (hstep : stepReq w st req = Except.ok st') :
      Step w st (req :: qs) st' qs

/-- All observable points of a run of `resolve` on root set `roots`:
the state after seeding, and the state after each batch arrival and each
processed response, for every possible schedule. -/
inductive Reach (w : World) (roots : List Requirement) : State → List Request → Prop
  | init : Reach w roots (seedState w roots) []
  | next {st q st' q'} : Reach w roots st q → Step w st q st' q' → Reach w roots st' q'

/-- The root requirements have pairwise distinct normalized names. -/
def DistinctRoots (w : World) (roots : List Requirement) : Prop :=
  (roots.map fun r => w.normalize r.name).Nodup

/-- Every metadata document in the index declares no dependencies. -/
def DepFree (w : World) : Prop :=
  ∀ f md, w.metadata f = Except.ok md → md.requires_dist = []

/-- The version a requirement is pinned to when its fetch chain succeeds:
the metadata version of the candidate the filter selects from its listing.
This is a pure function of the fixed world — no scheduling enters it. -/
def canonical (w : World) (r : Requirement) : Option Version :=
  match w.listing r.name with
  | .error _ => none
  | .ok files =>
    match selectFile w (reqSpecifiers r) files with
    | none => none
    | some f =>
      match w.metadata f with
      | .error _ => none
      | .ok md => some md.version

/-- The canonical pin for a normalized name under a root set: the pin of
the first root with that normalized name. -/
def rootsCanonical (w : World) (roots : List Requirement) (n : String) : Option Version :=
  match roots.find? (fun r => w.normalize r.name == n) with
  | none => none
  | some r => canonical w r

/-- Spec-side qualification predicate (spec §4.1): a candidate qualifies
iff its filename parses as a wheel, the wheel's version string parses as a
version, its platform tags are compatible with the active tag set, and the
parsed version satisfies every clause of the specifier — an absent
specifier contributes no clauses, so every version satisfies it. -/
def qualifiesSpec (w : World) (specs : Option (List Specifier)) (f : File) : Prop :=
  ∃ wn v, w.parseWheel f.filename = some wn ∧ w.parseVersion wn.version = some v ∧
    w.is_compatible wn w.tags = true ∧ ∀ s ∈ specs.getD [], s v = true

/-- Evidence that a `Version` (metadata) request for `(r, f)` is justified:
`f` is the candidate the filter selected from `r`'s listing. -/
def VEvidence (w : World) (r : Requirement) (f : File) : Prop :=
  ∃ files, w.listing r.name = Except.ok files ∧
    selectFile w (reqSpecifiers r) files = some f

/-- Evidence that a resolution entry `(n, v)` is justified: some
requirement `r` with normalized name `n` had a candidate selected whose
metadata version is `v`. -/
def EntryEvidence (w : World) (n : String) (v : Version) : Prop :=
  ∃ r f md, VEvidence w r f ∧ w.metadata f = Except.ok md ∧
    n = w.normalize r.name ∧ v = md.version

/-! ### Concrete instances used by counterexamples and witnesses -/

/-- Demo wheel-filename parser: the wheel filenames occurring in the demo
worlds parse to their version component with a single tag `"t"`; anything
else (e.g. `.tar.gz` source archives) is unparsable. -/
def parseWheelDemo (s : String) : Option WheelFilename :=
  if s = "foo-1.whl" then some ⟨"1", ["t"]⟩
  else if s = "foo-2.whl" then some ⟨"2", ["t"]⟩
  else if s = "a-1.whl" then some ⟨"1", ["t"]⟩
  else if s = "b-2.whl" then some ⟨"2", ["t"]⟩
  else if s = "c-1.whl" then some ⟨"1", ["t"]⟩
  else if s = "c-2.whl" then some ⟨"2", ["t"]⟩
  else none

/-- Demo version parser: digit strings up to 2 parse to the number. -/
def parseVersionDemo (s : String) : Option Version :=
  if s = "1" then some 1 else if s = "2" then some 2 else none

def fileFoo1 : File := ⟨"foo-1.whl", "u1"⟩
def fileFoo2 : File := ⟨"foo-2.whl", "u2"⟩
def fileA : File := ⟨"a-1.whl", "ua"⟩
def fileB : File := ⟨"b-2.whl", "ub"⟩
def fileC1 : File := ⟨"c-1.whl", "uc1"⟩
def fileC2 : File := ⟨"c-2.whl", "uc2"⟩
def fileSdist : File := ⟨"pkga-1.tar.gz", "us"⟩

def reqFooEq1 : Requirement := ⟨"foo", none, some (.versionSpecifier [fun v => v == 1]), none⟩
def reqFooEq2 : Requirement := ⟨"foo", none, some (.versionSpecifier [fun v => v == 2]), none⟩
def reqFooLt2 : Requirement := ⟨"foo", none, some (.versionSpecifier [fun v => decide (v < 2)]), none⟩
def reqA : Requirement := ⟨"a", none, none, none⟩
def reqB : Requirement := ⟨"b", none, none, none⟩
def reqPkga : Requirement := ⟨"pkga", none, none, none⟩
def depCle1 : Requirement := ⟨"c", none, some (.versionSpecifier [fun v => decide (v ≤ 1)]), none⟩
def depCge2 : Requirement := ⟨"c", none, some (.versionSpecifier [fun v => decide (2 ≤ v)]), none⟩
/-- A dependency whose marker evaluates to false in every environment. -/
def depMGated : Requirement := ⟨"m", none, none, some fun _ _ => false⟩

/-- World with two versions of `foo` and dependency-free metadata; used
with duplicate root requirements for `foo`. -/
def wDup : World where
  listing := fun n => if n = "foo" then .ok [fileFoo1, fileFoo2] else .error "404"
  metadata := fun f =>
    if f = fileFoo1 then .ok ⟨1, []⟩
    else if f = fileFoo2 then .ok ⟨2, []⟩
    else .error "404"
  markers := []
  tags := ["t"]
  normalize := fun s => s
  parseWheel := parseWheelDemo
  parseVersion := parseVersionDemo
  is_compatible := fun _ _ => true

/-- World where roots `a` and `b` each depend on `c` under conflicting
specifiers (`c ≤ 1` vs `c ≥ 2`). -/
def wConf : World where
  listing := fun n =>
    if n = "a" then .ok [fileA]
    else if n = "b" then .ok [fileB]
    else if n = "c" then .ok [fileC1, fileC2]
    else .error "404"
  metadata := fun f =>
    if f = fileA then .ok ⟨1, [depCle1]⟩
    else if f = fileB then .ok ⟨1, [depCge2]⟩
    else if f = fileC1 then .ok ⟨1, []⟩
    else if f = fileC2 then .ok ⟨2, []⟩
    else .error "404"
  markers := []
  tags := ["t"]
  normalize := fun s => s
  parseWheel := parseWheelDemo
  parseVersion := parseVersionDemo
  is_compatible := fun _ _ => true

/-- World where root `a` depends on `b` (marker satisfied) and on the
marker-gated `m` (marker false). -/
def wDemo : World where
  listing := fun n =>
    if n = "a" then .ok [fileA]
    else if n = "b" then .ok [fileB]
    else .error "404"
  metadata := fun f =>
    if f = fileA then .ok ⟨1, [reqB, depMGated]⟩
    else if f = fileB then .ok ⟨2, []⟩
    else .error "404"
  markers := []
  tags := ["t"]
  normalize := fun s => s
  parseWheel := parseWheelDemo
  parseVersion := parseVersionDemo
  is_compatible := fun _ _ => true

/-- World whose only listing for `pkga` is a source archive: no candidate
ever parses as a wheel. -/
def wSdist : World where
  listing := fun n => if n = "pkga" then .ok [fileSdist] else .error "404"
  metadata := fun _ => .error "nometa"
  markers := []
  tags := ["t"]
  normalize := fun s => s
  parseWheel := parseWheelDemo
  parseVersion := parseVersionDemo
  is_compatible := fun _ _ => true

/-- World where root `a` resolves but its dependency `b` has a failing
listing fetch. -/
def wErr : World where
  listing := fun n =>
    if n = "a" then .ok [fileA]
    else if n = "b" then .error "boom"
    else .error "404"
  metadata := fun f => if f = fileA then .ok ⟨1, [reqB]⟩ else .error "404"
  markers := []
  tags := ["t"]
  normalize := fun s => s
  parseWheel := parseWheelDemo
  parseVersion := parseVersionDemo
  is_compatible := fun _ _ => true

/-- World whose metadata document for `foo-1.whl` reports version `99`,
disagreeing with the filename-encoded version `1`. -/
def wMeta : World where
  listing := fun n => if n = "foo" then .ok [fileFoo1] else .error "404"
  metadata := fun f => if f = fileFoo1 then .ok ⟨99, []⟩ else .error "404"
  markers := []
  tags := ["t"]
  normalize := fun s => s
  parseWheel := parseWheelDemo
  parseVersion := parseVersionDemo
  is_compatible := fun _ _ => true

/-- Dependency-free world with two independent roots `a` and `b`. -/
def wPair : World where
  listing := fun n =>
    if n = "a" then .ok [fileA]
    else if n = "b" then .ok [fileB]
    else .error "404"
  metadata := fun f =>
    if f = fileA then .ok ⟨1, []⟩
    else if f = fileB then .ok ⟨2, []⟩
    else .error "404"
  markers := []
  tags := ["t"]
  normalize := fun s => s
  parseWheel := parseWheelDemo
  parseVersion := parseVersionDemo
  is_compatible := fun _ _ => true

/-- Observable run prefix in `wDemo`, used by witnesses: the seeded state
for root `a`. -/
def dSt0 : State := seedState wDemo [reqA]

/-- After the first await: the whole pending set (`[Package a]`) arrives as
the batch. -/
def dSt1 : State := { dSt0 with pending := [] }

/-- After processing the listing response for `a`: the metadata request for
the selected candidate `a-1.whl` is pending. -/
def dSt2 : State := stepOk wDemo dSt1 (Request.package reqA)

/-- After the second await: the metadata response batch arrives. -/
def dSt3 : State := { dSt2 with pending := [] }

/-- After finalizing `a`: `a` is pinned, its satisfied dependency `b` is in
flight, the marker-gated dependency `m` was dropped. -/
def dSt4 : State := stepOk wDemo dSt3 (Request.version reqA fileA)

/-- After the third await: the pending `Package b` request arrives as the
batch while `a ↦ 1` is already in the resolution. -/
def dSt5 : State := { dSt4 with pending := [] }

/-- After processing the listing response for `b`: the metadata request for
`b-2.whl` is pending and the entry `a ↦ 1` is untouched. -/
def dSt6 : State := stepOk wDemo dSt5 (Request.package reqB)

/-- Number of outstanding requests (pending or in the current batch) whose
normalized name is `n`. -/
def reqCount (w : World) (n : String) (l : List Request) : Nat :=
  l.countP fun req => reqName w req == n

/-- Counting invariant, valid for runs whose root requirements have
pairwise distinct normalized names: the in-flight set has no duplicates;
each normalized name has at most one outstanding request; a name with an
outstanding request is in flight; and an in-flight name has no resolution
entry. -/
def CountInv (w : World) (st : State) (q : List Request) : Prop :=
  st.inFlight.Nodup ∧
  (∀ n, reqCount w n (st.pending ++ q) ≤ 1) ∧
  (∀ n, 1 ≤ reqCount w n (st.pending ++ q) → n ∈ st.inFlight) ∧
  (∀ n ∈ st.inFlight, resLookup n st.resolution = none)

/-- Canonical-pin invariant, valid for dependency-free worlds and root
sets with pairwise distinct normalized names: every resolution entry is
the canonical pin of some root; every root is either still in flight with
no entry, or pinned to its canonical version; and every outstanding
request belongs to a root, a `Version` request carrying exactly the
candidate the filter selects. -/
def CanonInv (w : World) (roots : List Requirement) (st : State)
    (q : List Request) : Prop :=
  (∀ n v, resLookup n st.resolution = some v →
    ∃ r ∈ roots, n = w.normalize r.name ∧ canonical w r = some v) ∧
  (∀ r ∈ roots, (w.normalize r.name ∈ st.inFlight ∧
      resLookup (w.normalize r.name) st.resolution = none) ∨
    ∃ v, canonical w r = some v ∧
      resLookup (w.normalize r.name) st.resolution = some v) ∧
  (∀ req ∈ st.pending ++ q,
    (∀ r, req = Request.package r → r ∈ roots) ∧
    (∀ r f, req = Request.version r f → r ∈ roots ∧
      ∃ files, w.listing r.name = Except.ok files ∧
        selectFile w (reqSpecifiers r) files = some f))

/-- Mid-run state of the duplicate-root run in `wDup`: after the first
batch delivered both listing responses, the two metadata responses are
pending and nothing is resolved yet. -/
def c2MidState : State :=
  match resolve wDup [reqFooEq1, reqFooEq2] [[true, true]] with
  | Outcome.fuel st => st
  | _ => ⟨[], [], []⟩

/-! ### Basic lemmas about the data structures -/

theorem resLookup_resInsert (n m : String) (v : Version) (res : Resolution) :
    resLookup m (resInsert n v res) = if n = m then some v else resLookup m res := by
  induction res with
  | nil =>
    by_cases h : n = m <;> simp [resInsert, resLookup, h]
  | cons hd tl ih =>
    obtain ⟨k, x⟩ := hd
    by_cases hk : k = n
    · subst hk
      by_cases h : k = m <;> simp [resInsert, resLookup, h]
    · by_cases h : k = m
      · have hnm : ¬ n = m := fun hnm => hk (h.trans hnm.symm)
        have hmn : ¬ m = n := fun h2 => hnm h2.symm
        simp [resInsert, resLookup, hk, h, hnm, hmn]
      · simp [resInsert, resLookup, hk, h, ih]

theorem resLookup_resInsert_self (n : String) (v : Version) (res : Resolution) :
    resLookup n (resInsert n v res) = some v := by
  simp [resLookup_resInsert]

theorem resLookup_resInsert_ne (n m : String) (v : Version) (res : Resolution)
    (h : n ≠ m) : resLookup m (resInsert n v res) = resLookup m res := by
  simp [resLookup_resInsert, h]

theorem maskExtract_perm (l : List Request) (bs : List Bool) :
    l.Perm ((maskExtract l bs).1 ++ (maskExtract l bs).2) := by
  induction l generalizing bs with
  | nil => cases bs <;> simp [maskExtract]
  | cons r t ih =>
    cases bs with
    | nil => simp [maskExtract]
    | cons b bt =>
      cases b with
      | true =>
        simpa [maskExtract] using (ih bt).cons r
      | false =>
        simp only [maskExtract]
        exact ((ih bt).cons r).trans List.perm_middle.symm

theorem mem_of_maskExtract_batch {l : List Request} {bs : List Bool} {q : Request}
    (h : q ∈ (maskExtract l bs).1) : q ∈ l :=
  (maskExtract_perm l bs).mem_iff.mpr (List.mem_append.mpr (Or.inl h))

/-! ### Lemmas about single-response processing -/

theorem stepReq_package_cases (w : World) (st : State) (r : Requirement) (st' : State)
    (h : stepReq w st (Request.package r) = Except.ok st') :
    (st' = st ∧ ∃ files, w.listing r.name = Except.ok files ∧
        selectFile w (reqSpecifiers r) files = none) ∨
    (∃ files f, w.listing r.name = Except.ok files ∧
        selectFile w (reqSpecifiers r) files = some f ∧
        st' = { st with pending := st.pending ++ [Request.version r f] }) := by
  simp only [stepReq] at h
  split at h
  · exact Except.noConfusion h
  · rename_i files heq
    split at h
    · rename_i hsel
      simp only [Except.ok.injEq] at h
      exact Or.inl ⟨h.symm, files, heq, hsel⟩
    · rename_i f hsel
      simp only [Except.ok.injEq] at h
      exact Or.inr ⟨files, f, heq, hsel, h.symm⟩

theorem stepReq_version_cases (w : World) (st : State) (r : Requirement) (f : File)
    (st' : State) (h : stepReq w st (Request.version r f) = Except.ok st') :
    ∃ md, w.metadata f = Except.ok md ∧
      st' = md.requires_dist.foldl (enqueueDep w r)
        { st with
           inFlight := st.inFlight.erase (w.normalize r.name),
           resolution := resInsert (w.normalize r.name) md.version st.resolution } := by
  simp only [stepReq] at h
  split at h
  · exact Except.noConfusion h
  · rename_i md heq
    simp only [Except.ok.injEq] at h
    exact ⟨md, heq, h.symm⟩

theorem stepReq_error_of_fetchErr (w : World) (st : State) (req : Request) (e : Err)
    (h : fetchErr w req = some e) : stepReq w st req = Except.error e := by
  cases req with
  | package r =>
    simp only [fetchErr] at h
    simp only [stepReq]
    split at h
    · exact congrArg Except.error (Option.some.inj h)
    · exact Option.noConfusion h
  | version r f =>
    simp only [fetchErr] at h
    simp only [stepReq]
    split at h
    · exact congrArg Except.error (Option.some.inj h)
    · exact Option.noConfusion h

theorem stepReq_ok_of_fetchErr_none (w : World) (st : State) (req : Request)
    (h : fetchErr w req = none) : ∃ st', stepReq w st req = Except.ok st' := by
  cases req with
  | package r =>
    simp only [fetchErr] at h
    simp only [stepReq]
    split at h
    · exact Option.noConfusion h
    · rename_i files heq
      cases selectFile w (reqSpecifiers r) files <;> exact ⟨_, rfl⟩
  | version r f =>
    simp only [fetchErr] at h
    simp only [stepReq]
    split at h
    · exact Option.noConfusion h
    · rename_i md heq
      exact ⟨_, rfl⟩

/-! ### Lemmas about dependency enqueueing -/

theorem enqueueDep_resolution (w : World) (r : Requirement) (st : State)
    (dep : Requirement) : (enqueueDep w r st dep).resolution = st.resolution := by
  simp only [enqueueDep]
  split_ifs <;> rfl

theorem enqueueDeps_resolution (w : World) (r : Requirement) (deps : List Requirement)
    (st : State) : (deps.foldl (enqueueDep w r) st).resolution = st.resolution := by
  induction deps generalizing st with
  | nil => rfl
  | cons d t ih => rw [List.foldl_cons, ih, enqueueDep_resolution]

theorem enqueueDep_pending_mem (w : World) (r : Requirement) (st : State)
    (dep : Requirement) (q : Request) (h : q ∈ (enqueueDep w r st dep).pending) :
    q ∈ st.pending ∨ (q = Request.package dep ∧
      dep.evaluate_markers w.markers (r.extras.getD []) = true) := by
  simp only [enqueueDep] at h
  split_ifs at h with h1 h2 h3
  · exact Or.inl h
  · exact Or.inl h
  · exact Or.inl h
  · simp only [List.mem_append, List.mem_singleton] at h
    rcases h with h | h
    · exact Or.inl h
    · refine Or.inr ⟨h, ?_⟩
      simpa using h1

theorem enqueueDeps_pending_mem (w : World) (r : Requirement) (deps : List Requirement)
    (st : State) (q : Request) (h : q ∈ (deps.foldl (enqueueDep w r) st).pending) :
    q ∈ st.pending ∨ ∃ d ∈ deps, q = Request.package d ∧
      d.evaluate_markers w.markers (r.extras.getD []) = true := by
  induction deps generalizing st with
  | nil => exact Or.inl h
  | cons d t ih =>
    rcases ih (enqueueDep w r st d) h with h' | ⟨d', hd', hq, hm⟩
    · rcases enqueueDep_pending_mem w r st d q h' with h'' | ⟨hq, hm⟩
      · exact Or.inl h''
      · exact Or.inr ⟨d, List.mem_cons_self _ _, hq, hm⟩
    · exact Or.inr ⟨d', List.mem_cons_of_mem _ hd', hq, hm⟩

theorem enqueueDep_inFlight_sup (w : World) (r : Requirement) (st : State)
    (dep : Requirement) (n : String) (h : n ∈ st.inFlight) :
    n ∈ (enqueueDep w r st dep).inFlight := by
  simp only [enqueueDep]
  split_ifs <;> first
    | exact h
    | exact List.mem_cons_of_mem _ h

theorem enqueueDep_inFlight_mem (w : World) (r : Requirement) (st : State)
    (dep : Requirement) (n : String) (h : n ∈ (enqueueDep w r st dep).inFlight) :
    n ∈ st.inFlight ∨ n = w.normalize dep.name := by
  simp only [enqueueDep] at h
  split_ifs at h with h1 h2 h3
  · exact Or.inl h
  · exact Or.inl h
  · exact Or.inl h
  · rcases List.mem_cons.mp h with h' | h'
    · exact Or.inr h'
    · exact Or.inl h'

theorem foldl_preserve {α β : Type} {P : β → Prop} (f : β → α → β) (l : List α)
    (st : β) (h : ∀ s a, a ∈ l → P s → P (f s a)) (h0 : P st) : P (l.foldl f st) := by
  induction l generalizing st with
  | nil => exact h0
  | cons a t ih =>
    exact ih (f st a) (fun s b hb => h s b (List.mem_cons_of_mem _ hb))
      (h st a (List.mem_cons_self _ _) h0)

/-! ### Lemmas about seeding -/

theorem seedFold_pending (w : World) (roots : List Requirement) (st : State) :
    (roots.foldl (seedStep w) st).pending = st.pending ++ roots.map Request.package := by
  induction roots generalizing st with
  | nil => simp
  | cons r t ih => simp [seedStep, ih, List.append_assoc]

theorem seedFold_resolution (w : World) (roots : List Requirement) (st : State) :
    (roots.foldl (seedStep w) st).resolution = st.resolution := by
  induction roots generalizing st with
  | nil => rfl
  | cons r t ih => rw [List.foldl_cons, ih]; rfl

theorem seedFold_inFlight_mem (w : World) (roots : List Requirement) (st : State)
    (n : String) : n ∈ (roots.foldl (seedStep w) st).inFlight ↔
      n ∈ st.inFlight ∨ n ∈ roots.map fun r => w.normalize r.name := by
  induction roots generalizing st with
  | nil => simp
  | cons r t ih =>
    rw [List.foldl_cons, ih]
    simp only [seedStep, List.mem_insert_iff, List.map_cons, List.mem_cons]
    tauto

theorem seedFold_inFlight_nodup (w : World) (roots : List Requirement) (st : State)
    (h : st.inFlight.Nodup) : (roots.foldl (seedStep w) st).inFlight.Nodup := by
  induction roots generalizing st with
  | nil => exact h
  | cons r t ih => exact ih _ h.insert

theorem seedState_pending (w : World) (roots : List Requirement) :
    (seedState w roots).pending = roots.map Request.package := by
  simpa using seedFold_pending w roots ⟨[], [], []⟩

theorem seedState_resolution (w : World) (roots : List Requirement) :
    (seedState w roots).resolution = [] :=
  seedFold_resolution w roots ⟨[], [], []⟩

theorem seedState_inFlight_mem (w : World) (roots : List Requirement) (n : String) :
    n ∈ (seedState w roots).inFlight ↔ n ∈ roots.map fun r => w.normalize r.name := by
  rw [seedState, seedFold_inFlight_mem]
  simp

theorem seedState_inFlight_nodup (w : World) (roots : List Requirement) :
    (seedState w roots).inFlight.Nodup :=
  seedFold_inFlight_nodup w roots ⟨[], [], []⟩ List.nodup_nil

/-! ### Bridging the executable run to the observable-point relation -/

theorem processList_reach (w : World) (roots : List Requirement) :
    ∀ (qs : List Request) (st st' : State), Reach w roots st qs →
      processList w qs st = Except.ok st' → Reach w roots st' [] := by
  intro qs
  induction qs with
  | nil =>
    intro st st' hr h
    simp only [processList] at h
    exact (Except.ok.inj h) ▸ hr
  | cons req t ih =>
    intro st st' hr h
    simp only [processList] at h
    split at h
    · exact Except.noConfusion h
    · rename_i st1 heq
      exact ih st1 st' (hr.next (Step.proc st st1 req t heq)) h

theorem goLoop_reach (w : World) (roots : List Requirement) :
    ∀ (sched : List (List Bool)) (st : State) (res : Resolution),
      Reach w roots st [] → goLoop w sched st = Outcome.ok res →
      ∃ st', Reach w roots st' [] ∧ st'.inFlight = [] ∧ st'.resolution = res := by
  intro sched
  induction sched with
  | nil =>
    intro st res hr h
    exact Outcome.noConfusion h
  | cons sel rest ih =>
    intro st res hr h
    simp only [goLoop] at h
    split at h
    · exact Outcome.noConfusion h
    · split at h
      · exact Outcome.noConfusion h
      · rename_i st1 heq
        have hre : Reach w roots st1 [] := by
          refine processList_reach w roots _ _ _ ?_ heq
          exact hr.next (Step.select st _ _ (maskExtract_perm st.pending sel))
        split at h
        · rename_i hemp
          refine ⟨st1, hre, ?_, (Outcome.ok.inj h)⟩
          exact List.isEmpty_iff.mp hemp
        · exact ih st1 res hre h

theorem resolve_ok_reach (w : World) (roots : List Requirement)
    (sched : List (List Bool)) (res : Resolution)
    (h : resolve w roots sched = Outcome.ok res) :
    ∃ st', Reach w roots st' [] ∧ st'.inFlight = [] ∧ st'.resolution = res :=
  goLoop_reach w roots sched (seedState w roots) res Reach.init h

/-! ### The disjointness invariant -/

theorem enqueueDep_nodup_disjoint (w : World) (r : Requirement) (s : State)
    (dep : Requirement)
    (h : s.inFlight.Nodup ∧ ∀ n ∈ s.inFlight, resLookup n s.resolution = none) :
    (enqueueDep w r s dep).inFlight.Nodup ∧
      ∀ n ∈ (enqueueDep w r s dep).inFlight,
        resLookup n (enqueueDep w r s dep).resolution = none := by
  obtain ⟨hnd, hdis⟩ := h
  simp only [enqueueDep]
  split_ifs with h1 h2 h3
  · exact ⟨hnd, hdis⟩
  · exact ⟨hnd, hdis⟩
  · exact ⟨hnd, hdis⟩
  · refine ⟨List.nodup_cons.mpr ⟨h3, hnd⟩, fun n hn => ?_⟩
    rcases List.mem_cons.mp hn with rfl | hn'
    · simpa using h2
    · exact hdis n hn'

theorem step_nodup_disjoint (w : World) {st : State} {q : List Request}
    {st' : State} {q' : List Request} (hs : Step w st q st' q')
    (h : st.inFlight.Nodup ∧ ∀ n ∈ st.inFlight, resLookup n st.resolution = none) :
    st'.inFlight.Nodup ∧ ∀ n ∈ st'.inFlight, resLookup n st'.resolution = none := by
  obtain ⟨hnd, hdis⟩ := h
  cases hs
  case select => exact ⟨hnd, hdis⟩
  case proc =>
    rename_i req hstep
    cases req with
    | package r =>
      rcases stepReq_package_cases w st r st' hstep with
        ⟨heq, _⟩ | ⟨files, f, _, _, heq⟩ <;> subst heq
      · exact ⟨hnd, hdis⟩
      · exact ⟨hnd, hdis⟩
    | version r f =>
      obtain ⟨md, hmd, heq⟩ := stepReq_version_cases w st r f st' hstep
      subst heq
      refine foldl_preserve (P := fun s =>
        s.inFlight.Nodup ∧ ∀ n ∈ s.inFlight, resLookup n s.resolution = none)
        (enqueueDep w r) md.requires_dist _
        (fun s dep _ hp => enqueueDep_nodup_disjoint w r s dep hp) ?_
      refine ⟨hnd.erase _, fun n hn => ?_⟩
      have hne := (hnd.mem_erase_iff.mp hn).1
      have hmem := (hnd.mem_erase_iff.mp hn).2
      rw [resLookup_resInsert_ne _ _ _ _ fun hh => hne hh.symm]
      exact hdis n hmem

theorem reach_nodup_disjoint (w : World) (roots : List Requirement)
    (st : State) (q : List Request) (h : Reach w roots st q) :
    st.inFlight.Nodup ∧ ∀ n ∈ st.inFlight, resLookup n st.resolution = none := by
  induction h with
  | init =>
    refine ⟨seedState_inFlight_nodup w roots, fun n _ => ?_⟩
    rw [seedState_resolution]
    rfl
  | next hr hs ih => exact step_nodup_disjoint w hs ih

/-! ### The provenance invariant -/

theorem step_provenance (w : World) {st : State} {q : List Request}
    {st' : State} {q' : List Request} (hs : Step w st q st' q')
    (h : (∀ n v, resLookup n st.resolution = some v → EntryEvidence w n v) ∧
      ∀ r f, Request.version r f ∈ st.pending ++ q → VEvidence w r f) :
    (∀ n v, resLookup n st'.resolution = some v → EntryEvidence w n v) ∧
      ∀ r f, Request.version r f ∈ st'.pending ++ q' → VEvidence w r f := by
  obtain ⟨hres, hpend⟩ := h
  cases hs
  case select =>
    rename_i pend' hperm
    refine ⟨hres, fun r f hf => hpend r f ?_⟩
    rw [List.append_nil, hperm.mem_iff]
    rcases List.mem_append.mp hf with h1 | h1
    · exact List.mem_append.mpr (Or.inr h1)
    · exact List.mem_append.mpr (Or.inl h1)
  case proc =>
    rename_i req hstep
    cases req with
    | package r =>
      rcases stepReq_package_cases w st r st' hstep with
        ⟨heq, _⟩ | ⟨files, f0, hl, hsel, heq⟩ <;> subst heq
      · refine ⟨hres, fun r' f' hf => hpend r' f' ?_⟩
        rcases List.mem_append.mp hf with h1 | h1
        · exact List.mem_append.mpr (Or.inl h1)
        · exact List.mem_append.mpr (Or.inr (List.mem_cons_of_mem _ h1))
      · refine ⟨hres, fun r' f' hf => ?_⟩
        rcases List.mem_append.mp hf with h1 | h1
        · rcases List.mem_append.mp h1 with h2 | h2
          · exact hpend r' f' (List.mem_append.mpr (Or.inl h2))
          · have h3 := List.mem_singleton.mp h2
            injection h3 with h4 h5
            subst h4
            subst h5
            exact ⟨files, hl, hsel⟩
        · exact hpend r' f' (List.mem_append.mpr (Or.inr (List.mem_cons_of_mem _ h1)))
    | version r f =>
      obtain ⟨md, hmd, heq⟩ := stepReq_version_cases w st r f st' hstep
      subst heq
      constructor
      · intro n v hv
        rw [enqueueDeps_resolution] at hv
        have hv' : resLookup n (resInsert (w.normalize r.name) md.version
            st.resolution) = some v := hv
        rw [resLookup_resInsert] at hv'
        by_cases hn : w.normalize r.name = n
        · rw [if_pos hn] at hv'
          refine ⟨r, f, md, hpend r f ?_, hmd, hn.symm, (Option.some.inj hv').symm⟩
          exact List.mem_append.mpr (Or.inr (List.mem_cons_self _ _))
        · rw [if_neg hn] at hv'
          exact hres n v hv'
      · intro r' f' hf
        rcases List.mem_append.mp hf with h1 | h1
        · rcases enqueueDeps_pending_mem w r md.requires_dist _ _ h1 with
            h2 | ⟨d, _, h3, _⟩
          · exact hpend r' f' (List.mem_append.mpr (Or.inl h2))
          · exact Request.noConfusion h3
        · exact hpend r' f' (List.mem_append.mpr (Or.inr (List.mem_cons_of_mem _ h1)))

theorem reach_provenance (w : World) (roots : List Requirement)
    (st : State) (q : List Request) (h : Reach w roots st q) :
    (∀ n v, resLookup n st.resolution = some v → EntryEvidence w n v) ∧
      ∀ r f, Request.version r f ∈ st.pending ++ q → VEvidence w r f := by
  induction h with
  | init =>
    constructor
    · intro n v hv
      rw [seedState_resolution] at hv
      exact Option.noConfusion hv
    · intro r f hf
      rw [List.append_nil, seedState_pending] at hf
      obtain ⟨r', _, habs⟩ := List.mem_map.mp hf
      exact Request.noConfusion habs
  | next hr hs ih => exact step_provenance w hs ih

/-! ### The candidate filter, pointwise -/

theorem specifiersAll_iff (specs : Option (List Specifier)) (v : Version) :
    specifiersAll specs v = true ↔ ∀ s ∈ specs.getD [], s v = true := by
  cases specs with
  | none => simp [specifiersAll]
  | some ss => simp [specifiersAll, List.all_eq_true]

theorem fileQualifies_iff (w : World) (specs : Option (List Specifier)) (f : File) :
    fileQualifies w specs f = true ↔ qualifiesSpec w specs f := by
  cases hw : w.parseWheel f.filename with
  | none => simp [fileQualifies, qualifiesSpec, hw]
  | some wn =>
    cases hv : w.parseVersion wn.version with
    | none => simp [fileQualifies, qualifiesSpec, hw, hv]
    | some ver =>
      by_cases hc : w.is_compatible wn w.tags = true
      · simp [fileQualifies, qualifiesSpec, hw, hv, hc, specifiersAll_iff]
      · simp [fileQualifies, qualifiesSpec, hw, hv, hc]

theorem fileQualifies_false_iff (w : World) (specs : Option (List Specifier))
    (f : File) : fileQualifies w specs f = false ↔ ¬ qualifiesSpec w specs f := by
  rw [← fileQualifies_iff]
  cases fileQualifies w specs f <;> simp

theorem selectFile_some (w : World) (specs : Option (List Specifier))
    (files : List File) (f : File) (h : selectFile w specs files = some f) :
    f ∈ files ∧ fileQualifies w specs f = true := by
  unfold selectFile at h
  exact ⟨List.mem_reverse.mp (List.mem_of_find?_eq_some h), List.find?_some h⟩

/-! ### Claim theorems (first group) -/

/-- C4: given a candidate listing, an optional version specifier, and the
active platform tag set, the candidate filter scans the listing in reverse
order and returns the first candidate that qualifies, where a candidate
qualifies iff its filename parses as a wheel with a parseable version, its
platform tags are compatible with the active tag set, and its version
satisfies every clause of the specifier (an absent specifier, including a
direct-URL requirement, means every version satisfies); unparsable
candidates are skipped without error (they simply fail to qualify, and the
filter is total, returning `none` rather than failing). -/
theorem candidate_filter_first_qualifying (w : World)
    (specs : Option (List Specifier)) (files : List File) :
    (∀ f, selectFile w specs files = some f ↔
      qualifiesSpec w specs f ∧ ∃ pre post, files.reverse = pre ++ f :: post ∧
        ∀ g ∈ pre, ¬ qualifiesSpec w specs g) ∧
    (selectFile w specs files = none ↔ ∀ f ∈ files, ¬ qualifiesSpec w specs f) := by
  constructor
  · intro f
    unfold selectFile
    rw [List.find?_eq_some]
    constructor
    · rintro ⟨hq, pre, post, heq, hpre⟩
      refine ⟨(fileQualifies_iff w specs f).mp hq, pre, post, heq, fun g hg => ?_⟩
      have hg' := hpre g hg
      simp only [Bool.not_eq_true'] at hg'
      exact (fileQualifies_false_iff w specs g).mp hg'
    · rintro ⟨hq, pre, post, heq, hpre⟩
      refine ⟨(fileQualifies_iff w specs f).mpr hq, pre, post, heq, fun g hg => ?_⟩
      simp only [Bool.not_eq_true']
      exact (fileQualifies_false_iff w specs g).mpr (hpre g hg)
  · unfold selectFile
    rw [List.find?_eq_none]
    constructor
    · intro hall f hf hq
      exact hall f (List.mem_reverse.mpr hf) ((fileQualifies_iff w specs f).mpr hq)
    · intro hall f hf hq
      exact hall f (List.mem_reverse.mp hf) ((fileQualifies_iff w specs f).mp hq)

theorem stepReq_drop (w : World) (st : State) (r : Requirement)
    (files : List File) (hl : w.listing r.name = Except.ok files)
    (hsel : selectFile w (reqSpecifiers r) files = none) :
    stepReq w st (Request.package r) = Except.ok st := by
  simp only [stepReq, hl, hsel]

/-- C6: when the candidate filter finds no qualifying candidate for a
requirement, the requirement is dropped silently: processing its listing
response succeeds (no error), and leaves the state completely unchanged —
no entry is added to the resolution, no metadata (`Version`) fetch request
is emitted, and no dependency expansion happens for it. -/
theorem no_candidate_drops_silently (w : World) (st : State) (r : Requirement)
    (files : List File) (hl : w.listing r.name = Except.ok files)
    (hsel : selectFile w (reqSpecifiers r) files = none) :
    stepReq w st (Request.package r) = Except.ok st :=
  stepReq_drop w st r files hl hsel

/-- C7: at every observable point of a run (after seeding and after
processing each response, under every schedule), no normalized package
name is a member of both the in-flight set and the resolution. -/
theorem inFlight_resolution_disjoint (w : World) (roots : List Requirement)
    (st : State) (q : List Request) (h : Reach w roots st q) :
    ∀ n ∈ st.inFlight, resLookup n st.resolution = none :=
  (reach_nodup_disjoint w roots st q h).2

theorem fileQualifies_true_elim (w : World) (specs : Option (List Specifier))
    (f : File) (h : fileQualifies w specs f = true) :
    ∃ wn fv, w.parseWheel f.filename = some wn ∧
      w.parseVersion wn.version = some fv ∧
      w.is_compatible wn w.tags = true ∧ specifiersAll specs fv = true := by
  unfold fileQualifies at h
  split at h
  · exact Bool.noConfusion h
  · rename_i wn hw
    split at h
    · exact Bool.noConfusion h
    · rename_i fv hv
      split at h
      · exact Bool.noConfusion h
      · rename_i hcmp
        refine ⟨wn, fv, hw, hv, ?_, h⟩
        simpa using hcmp

/-- C8 (amended): every entry (n, v) of a returned resolution was produced
by a candidate file selected by the filter for a requirement whose
normalized name is n: the candidate's filename parsed as a wheel, the
wheel version parsed, its platform tags were compatible with the active
tag set, and the filename-parsed version satisfied every clause of the
requirement's specifier.  The pinned v is the metadata document's version
for that candidate, and it passed the specifier check whenever it agrees
with the filename-parsed version (the code never re-checks the metadata
version against the specifier). -/
theorem resolution_entry_provenance (w : World) (roots : List Requirement)
    (sched : List (List Bool)) (res : Resolution)
    (hok : resolve w roots sched = Outcome.ok res) :
    ∀ n v, resLookup n res = some v →
      ∃ r f files md wn fv,
        w.listing r.name = Except.ok files ∧
        selectFile w (reqSpecifiers r) files = some f ∧
        f ∈ files ∧
        w.parseWheel f.filename = some wn ∧
        w.parseVersion wn.version = some fv ∧
        w.is_compatible wn w.tags = true ∧
        specifiersAll (reqSpecifiers r) fv = true ∧
        w.metadata f = Except.ok md ∧
        n = w.normalize r.name ∧ v = md.version ∧
        (md.version = fv → specifiersAll (reqSpecifiers r) md.version = true) := by
  intro n v hv
  obtain ⟨st', hreach, _, hres⟩ := resolve_ok_reach w roots sched res hok
  subst hres
  obtain ⟨r, f, md, ⟨files, hl, hsel⟩, hmd, hn, hvv⟩ :=
    (reach_provenance w roots st' [] hreach).1 n v hv
  obtain ⟨hfmem, hq⟩ := selectFile_some w (reqSpecifiers r) files f hsel
  obtain ⟨wn, fv, hw, hpv, hcomp, hspec⟩ := fileQualifies_true_elim w _ f hq
  refine ⟨r, f, files, md, wn, fv, hl, hsel, hfmem, hw, hpv, hcomp, hspec, hmd,
    hn, hvv, fun he => ?_⟩
  rw [he]
  exact hspec

/-- C8 counterexample: the metadata document for the selected candidate
`foo-1.whl` reports version 99; a successful run pins `foo ↦ 99`, yet 99
does not satisfy the selecting requirement's specifier `< 2` (the filter
checked the filename-parsed version 1 instead), refuting "the pinned
version equals a version that passed the specifier check". -/
theorem pinned_version_not_specifier_checked :
    okRes (resolve wMeta [reqFooLt2] [[true], [true]]) = some [("foo", 99)] ∧
    specifiersAll (reqSpecifiers reqFooLt2) 99 = false ∧
    wMeta.parseVersion "1" = some 1 := by
  refine ⟨?_, ?_, ?_⟩ <;> decide

/-- C9: a dependency listed in a fetched metadata document whose marker
evaluates to false against the environment and the finalized requirement's
active extras is never requested at that finalization step — every request
for it in the post-step pending set was already pending before the step —
and the step changes the resolution at no name other than the finalized
requirement's own normalized name, so the dependency's name cannot enter
the resolution via that edge. -/
theorem marker_gated_dependency_not_requested (w : World) (st st' : State)
    (r : Requirement) (f : File) (md : Metadata21) (dep : Requirement)
    (hmd : w.metadata f = Except.ok md)
    (hstep : stepReq w st (Request.version r f) = Except.ok st')
    (hdep : dep ∈ md.requires_dist)
    (hm : dep.evaluate_markers w.markers (r.extras.getD []) = false) :
    (∀ q_ ∈ st'.pending, q_ ∈ st.pending ∨ q_ ≠ Request.package dep) ∧
    (∀ m, m ≠ w.normalize r.name →
      resLookup m st'.resolution = resLookup m st.resolution) := by
  obtain ⟨md', hmd', heq⟩ := stepReq_version_cases w st r f st' hstep
  rw [hmd] at hmd'
  have hmde : md = md' := Except.ok.inj hmd'
  subst hmde
  subst heq
  constructor
  · intro q_ hq
    rcases enqueueDeps_pending_mem w r md.requires_dist _ q_ hq with h1 | ⟨d, _, h2, h3⟩
    · exact Or.inl h1
    · right
      intro hcontra
      have h5 := hcontra.symm.trans h2
      injection h5 with h6
      rw [← h6] at h3
      rw [hm] at h3
      exact Bool.noConfusion h3
  · intro m hmna
    rw [enqueueDeps_resolution]
    exact resLookup_resInsert_ne _ _ _ _ fun hh => hmna hh.symm

/-! ### Error propagation -/

theorem processList_error_of_mem (w : World) :
    ∀ (qs : List Request) (st : State), (∃ req ∈ qs, fetchErr w req ≠ none) →
      ∃ e, processList w qs st = Except.error e := by
  intro qs
  induction qs with
  | nil =>
    intro st h
    obtain ⟨req, hmem, _⟩ := h
    exact absurd hmem (List.not_mem_nil req)
  | cons q t ih =>
    intro st h
    obtain ⟨req, hmem, herr⟩ := h
    cases hq : fetchErr w q with
    | some e =>
      refine ⟨e, ?_⟩
      simp only [processList, stepReq_error_of_fetchErr w st q e hq]
    | none =>
      obtain ⟨st1, hst1⟩ := stepReq_ok_of_fetchErr_none w st q hq
      rcases List.mem_cons.mp hmem with rfl | hmem'
      · exact absurd hq herr
      · obtain ⟨e, he⟩ := ih st1 ⟨req, hmem', herr⟩
        refine ⟨e, ?_⟩
        simp only [processList, hst1]
        exact he

theorem processList_first_error (w : World) :
    ∀ (pre : List Request) (req : Request) (post : List Request) (st : State)
      (e : Err), (∀ x ∈ pre, fetchErr w x = none) → fetchErr w req = some e →
      processList w (pre ++ req :: post) st = Except.error e := by
  intro pre
  induction pre with
  | nil =>
    intro req post st e _ herr
    simp only [List.nil_append, processList,
      stepReq_error_of_fetchErr w st req e herr]
  | cons x t ih =>
    intro req post st e hpre herr
    obtain ⟨st1, hst1⟩ := stepReq_ok_of_fetchErr_none w st x
      (hpre x (List.mem_cons_self _ _))
    simp only [List.cons_append, processList, hst1]
    exact ih req post st1 e (fun y hy => hpre y (List.mem_cons_of_mem _ hy)) herr

/-- C5: if a response delivered in an arrival batch is a failed listing or
metadata fetch (the first failure in the batch's processing order), the
drain loop aborts the entire run at that batch and returns exactly that
error — `st` is an arbitrary mid-run state, so this holds even when
earlier packages were already fetched and finalized into the resolution;
the error outcome carries no resolution at all. -/
theorem fetch_error_aborts_run (w : World) (st : State) (sel : List Bool)
    (rest : List (List Bool)) (pre : List Request) (req : Request)
    (post : List Request) (e : Err)
    (hbatch : (maskExtract st.pending sel).1 = pre ++ req :: post)
    (hpre : ∀ x ∈ pre, fetchErr w x = none)
    (herr : fetchErr w req = some e) :
    goLoop w (sel :: rest) st = Outcome.err e := by
  have hpne : ¬ st.pending.isEmpty = true := by
    intro hemp
    rw [List.isEmpty_iff] at hemp
    have hnil : (maskExtract st.pending sel).1 = [] := by
      rw [hemp]
      cases sel <;> rfl
    rw [hbatch] at hnil
    simp at hnil
  simp only [goLoop, if_neg hpne, hbatch, processList_first_error w pre req post
    { st with pending := (maskExtract st.pending sel).2 } e hpre herr]

/-- C10: called with an empty root requirement set, resolve emits no
request, so the drain loop's first await waits for a batch that can never
arrive and the in-flight-emptiness check is never reached: under every
schedule the run is hung (or still unscheduled), never returning — in
particular it never returns an empty resolution. -/
theorem empty_roots_never_returns (w : World) (sched : List (List Bool)) :
    outReturned (resolve w [] sched) = false := by
  cases sched with
  | nil => rfl
  | cons sel rest => rfl

/-! ### The dropped-requirement hang -/

theorem processList_all_dropped (w : World) (r : Requirement) (files : List File)
    (hl : w.listing r.name = Except.ok files)
    (hsel : selectFile w (reqSpecifiers r) files = none) :
    ∀ (qs : List Request) (st : State), (∀ q_ ∈ qs, q_ = Request.package r) →
      processList w qs st = Except.ok st := by
  intro qs
  induction qs with
  | nil => intro st _; rfl
  | cons q t ih =>
    intro st hall
    have hq := hall q (List.mem_cons_self _ _)
    subst hq
    simp only [processList, stepReq_drop w st r files hl hsel]
    exact ih st fun q_ hq_ => hall q_ (List.mem_cons_of_mem _ hq_)

/-- C3 (amended): a run whose single root requirement has a listing with no
wheel-parsable entry never returns: the requirement is dropped silently but
its normalized name is never removed from the in-flight set, so the
termination check never passes and the loop ends up awaiting a batch that
can never arrive.  Under every schedule the run returns neither a
resolution nor an error (and its resolution stays empty throughout). -/
theorem unparsable_listing_never_returns (w : World) (r : Requirement)
    (files : List File) (hl : w.listing r.name = Except.ok files)
    (hup : ∀ f ∈ files, w.parseWheel f.filename = none) :
    ∀ sched, outReturned (resolve w [r] sched) = false := by
  have hsel : selectFile w (reqSpecifiers r) files = none := by
    unfold selectFile
    rw [List.find?_eq_none]
    intro f hf
    have hnone := hup f (List.mem_reverse.mp hf)
    simp [fileQualifies, hnone]
  have hgo : ∀ (sched : List (List Bool)) (st : State),
      st.inFlight = [w.normalize r.name] →
      (∀ q_ ∈ st.pending, q_ = Request.package r) →
      outReturned (goLoop w sched st) = false := by
    intro sched
    induction sched with
    | nil => intro st _ _; rfl
    | cons sel rest ih =>
      intro st h1 h3
      simp only [goLoop]
      by_cases hemp : st.pending.isEmpty = true
      · rw [if_pos hemp]; rfl
      · rw [if_neg hemp]
        rw [processList_all_dropped w r files hl hsel (maskExtract st.pending sel).1
          { st with pending := (maskExtract st.pending sel).2 }
          (fun q_ hqm => h3 q_ (mem_of_maskExtract_batch hqm))]
        have hne : ¬ ({ st with pending := (maskExtract st.pending sel).2 } :
            State).inFlight.isEmpty = true := by
          intro habs
          rw [List.isEmpty_iff] at habs
          have hnil : st.inFlight = [] := habs
          rw [h1] at hnil
          exact List.noConfusion hnil
        show outReturned
          (if ({ st with pending := (maskExtract st.pending sel).2 } :
              State).inFlight.isEmpty = true then
            Outcome.ok ({ st with pending := (maskExtract st.pending sel).2 } :
              State).resolution
          else goLoop w rest { st with pending := (maskExtract st.pending sel).2 }) = false
        rw [if_neg hne]
        refine ih { st with pending := (maskExtract st.pending sel).2 } h1 ?_
        intro q_ hq_
        refine h3 q_ ?_
        exact (maskExtract_perm st.pending sel).mem_iff.mpr
          (List.mem_append.mpr (Or.inr hq_))
  intro sched
  refine hgo sched (seedState w [r]) ?_ ?_
  · rfl
  · intro q_ hq_
    rw [seedState_pending] at hq_
    simpa using hq_

/-- C3 counterexample: with the single root `pkga` whose listing holds only
a source archive (no wheel), the run does not "terminate and return a
Resolution": after the listing response is processed the loop hangs
awaiting a batch that can never arrive — no resolution (empty or not) is
ever returned. -/
theorem sdist_root_hangs :
    isHung (resolve wSdist [reqPkga] [[true], [true]]) = true ∧
    outReturned (resolve wSdist [reqPkga] [[true], [true]]) = false := by
  refine ⟨?_, ?_⟩ <;> decide

/-! ### Counterexamples: order dependence and overwriting -/

/-- C1 counterexample: arrival order changes the returned resolution.
With duplicate roots `foo == 1` and `foo == 2`, the run that completes the
first root's chain first pins `foo ↦ 1` and the other pins `foo ↦ 2`; with
distinct roots `a`, `b` whose metadata declare conflicting constraints on
`c` (`≤ 1` vs `≥ 2`), the finalization order decides which constraint's
request fetches `c`, pinning `c ↦ 1` or `c ↦ 2`.  All four runs complete
successfully against the same fixed index. -/
theorem arrival_order_changes_resolution :
    okRes (resolve wDup [reqFooEq1, reqFooEq2] [[true, false], [false, true]]) =
      some [("foo", 1)] ∧
    okRes (resolve wDup [reqFooEq1, reqFooEq2] [[false, true], [false, true]]) =
      some [("foo", 2)] ∧
    okRes (resolve wConf [reqA, reqB]
        [[true, false], [false, true], [true, false], [false, true], [true], [true]]) =
      some [("a", 1), ("b", 1), ("c", 1)] ∧
    okRes (resolve wConf [reqA, reqB]
        [[false, true], [false, true], [true, false], [false, true], [true], [true]]) =
      some [("b", 1), ("a", 1), ("c", 2)] := by
  refine ⟨?_, ?_, ?_, ?_⟩ <;> decide

/-- C2 counterexample: with duplicate roots for `foo`, a single run first
inserts `foo ↦ 1` and a later step of the same run overwrites it with
`foo ↦ 2`.  `c2MidState` is the state of the run after its first batch
(both metadata responses pending, resolution empty); processing the first
pending response alone yields `foo ↦ 1`, processing the full batch ends
with the entry overwritten to `foo ↦ 2`, which is what the completed run
returns. -/
theorem duplicate_roots_overwrite_entry :
    c2MidState.resolution = [] ∧
    okStateRes (processList wDup (maskExtract c2MidState.pending [true, false]).1
      { c2MidState with pending := (maskExtract c2MidState.pending [true, false]).2 }) =
      some [("foo", 1)] ∧
    okStateRes (processList wDup (maskExtract c2MidState.pending [true, true]).1
      { c2MidState with pending := (maskExtract c2MidState.pending [true, true]).2 }) =
      some [("foo", 2)] ∧
    okRes (resolve wDup [reqFooEq1, reqFooEq2] [[true, true], [true, true]]) =
      some [("foo", 2)] := by
  refine ⟨?_, ?_, ?_, ?_⟩ <;> decide

/-! ### Witnesses -/

theorem no_candidate_drops_silently_witness :
    stepReq wSdist (⟨[], ["pkga"], []⟩ : State) (Request.package reqPkga) =
      Except.ok (⟨[], ["pkga"], []⟩ : State) :=
  no_candidate_drops_silently wSdist ⟨[], ["pkga"], []⟩ reqPkga [fileSdist] rfl
    (by decide)

theorem fetch_error_aborts_run_witness :
    goLoop wErr [[true]]
      (⟨[Request.package reqB], ["b"], [("a", 1)]⟩ : State) =
      Outcome.err "boom" :=
  fetch_error_aborts_run wErr ⟨[Request.package reqB], ["b"], [("a", 1)]⟩ [true] []
    [] (Request.package reqB) [] "boom" rfl (fun x hx => absurd hx
      (List.not_mem_nil x)) (by decide)

theorem inFlight_resolution_disjoint_witness :
    "b" ∈ dSt4.inFlight ∧ resLookup "b" dSt4.resolution = none := by
  have h0 : Reach wDemo [reqA] dSt0 [] := Reach.init
  have hp0 : dSt0.pending = [Request.package reqA] := rfl
  have h1 : Reach wDemo [reqA] dSt1 [Request.package reqA] :=
    h0.next (Step.select dSt0 [Request.package reqA] [] (by rw [hp0]; simp))
  have h2 : Reach wDemo [reqA] dSt2 [] :=
    h1.next (Step.proc dSt1 dSt2 (Request.package reqA) [] (by rfl))
  have hp2 : dSt2.pending = [Request.version reqA fileA] := rfl
  have h3 : Reach wDemo [reqA] dSt3 [Request.version reqA fileA] :=
    h2.next (Step.select dSt2 [Request.version reqA fileA] [] (by rw [hp2]; simp))
  have h4 : Reach wDemo [reqA] dSt4 [] :=
    h3.next (Step.proc dSt3 dSt4 (Request.version reqA fileA) [] (by rfl))
  have hb : "b" ∈ dSt4.inFlight := by decide
  exact ⟨hb, inFlight_resolution_disjoint wDemo [reqA] dSt4 [] h4 "b" hb⟩

theorem resolution_entry_provenance_witness :
    ∃ r f files md wn fv,
      wPair.listing r.name = Except.ok files ∧
      selectFile wPair (reqSpecifiers r) files = some f ∧
      f ∈ files ∧
      wPair.parseWheel f.filename = some wn ∧
      wPair.parseVersion wn.version = some fv ∧
      wPair.is_compatible wn wPair.tags = true ∧
      specifiersAll (reqSpecifiers r) fv = true ∧
      wPair.metadata f = Except.ok md ∧
      "a" = wPair.normalize r.name ∧ 1 = md.version ∧
      (md.version = fv → specifiersAll (reqSpecifiers r) md.version = true) :=
  resolution_entry_provenance wPair [reqA] [[true], [true]] [("a", 1)] (by rfl)
    "a" 1 (by decide)

theorem marker_gated_dependency_not_requested_witness :
    (∀ q_ ∈ dSt4.pending, q_ ∈ dSt3.pending ∨ q_ ≠ Request.package depMGated) ∧
    (∀ m, m ≠ wDemo.normalize reqA.name →
      resLookup m dSt4.resolution = resLookup m dSt3.resolution) :=
  marker_gated_dependency_not_requested wDemo dSt3 dSt4 reqA fileA
    ⟨1, [reqB, depMGated]⟩ depMGated rfl (by rfl)
    (List.mem_cons_of_mem _ (List.mem_cons_self _ _)) rfl

theorem unparsable_listing_never_returns_witness :
    outReturned (resolve wSdist [reqPkga] [[true], []]) = false :=
  unparsable_listing_never_returns wSdist reqPkga [fileSdist] rfl (by decide)
    [[true], []]

/-! ### The counting invariant (distinct root names) -/

theorem reqCount_append_single (w : World) (n : String) (l₁ l₂ : List Request)
    (x : Request) : reqCount w n ((l₁ ++ [x]) ++ l₂) =
      reqCount w n (l₁ ++ l₂) + (if reqName w x = n then 1 else 0) := by
  simp only [reqCount, List.countP_append, List.countP_cons, List.countP_nil,
    beq_iff_eq]
  omega

theorem reqCount_middle (w : World) (n : String) (l₁ l₂ : List Request)
    (x : Request) : reqCount w n (l₁ ++ (x :: l₂)) =
      reqCount w n (l₁ ++ l₂) + (if reqName w x = n then 1 else 0) := by
  simp only [reqCount, List.countP_append, List.countP_cons, beq_iff_eq]
  omega

theorem reqCount_seed (w : World) (roots : List Requirement) (n : String) :
    reqCount w n (roots.map Request.package) =
      List.count n (roots.map fun r => w.normalize r.name) := by
  unfold reqCount
  rw [List.countP_map, List.count_eq_countP, List.countP_map]
  rfl

theorem seed_countInv (w : World) (roots : List Requirement)
    (hd : DistinctRoots w roots) : CountInv w (seedState w roots) [] := by
  refine ⟨seedState_inFlight_nodup w roots, ?_, ?_, ?_⟩
  · intro n
    rw [List.append_nil, seedState_pending, reqCount_seed]
    exact List.nodup_iff_count_le_one.mp hd n
  · intro n h1
    rw [List.append_nil, seedState_pending, reqCount_seed] at h1
    rw [seedState_inFlight_mem]
    exact List.count_pos_iff.mp h1
  · intro n _
    rw [seedState_resolution]
    rfl

theorem enqueueDep_countInv (w : World) (r : Requirement) (qs : List Request)
    (s : State) (dep : Requirement) (h : CountInv w s qs) :
    CountInv w (enqueueDep w r s dep) qs := by
  obtain ⟨hnd, hle, hmem, hdis⟩ := h
  unfold CountInv
  simp only [enqueueDep]
  split_ifs with h1 h2 h3
  · exact ⟨hnd, hle, hmem, hdis⟩
  · exact ⟨hnd, hle, hmem, hdis⟩
  · exact ⟨hnd, hle, hmem, hdis⟩
  · have hcnt0 : reqCount w (w.normalize dep.name) (s.pending ++ qs) = 0 := by
      by_contra hc
      exact h3 (hmem _ (Nat.one_le_iff_ne_zero.mpr hc))
    refine ⟨List.nodup_cons.mpr ⟨h3, hnd⟩, ?_, ?_, ?_⟩
    · intro n
      show reqCount w n ((s.pending ++ [Request.package dep]) ++ qs) ≤ 1
      rw [reqCount_append_single]
      by_cases hn : w.normalize dep.name = n
      · subst hn
        rw [hcnt0]
        simp [reqName]
      · have : reqName w (Request.package dep) = w.normalize dep.name := rfl
        rw [this, if_neg hn, Nat.add_zero]
        exact hle n
    · intro n hcnt
      rw [show ((⟨s.pending ++ [Request.package dep], w.normalize dep.name :: s.inFlight,
          s.resolution⟩ : State).pending ++ qs) =
        ((s.pending ++ [Request.package dep]) ++ qs) from rfl] at hcnt
      rw [reqCount_append_single] at hcnt
      by_cases hn : w.normalize dep.name = n
      · exact hn ▸ List.mem_cons_self _ _
      · have heq : reqName w (Request.package dep) = w.normalize dep.name := rfl
        rw [heq, if_neg hn, Nat.add_zero] at hcnt
        exact List.mem_cons_of_mem _ (hmem n hcnt)
    · intro n hn
      rcases List.mem_cons.mp hn with rfl | hn'
      · simpa using h2
      · exact hdis n hn'

theorem step_countInv (w : World) {st : State} {q : List Request}
    {st' : State} {q' : List Request} (hs : Step w st q st' q')
    (h : CountInv w st q) : CountInv w st' q' := by
  obtain ⟨hnd, hle, hmem, hdis⟩ := h
  cases hs
  case select =>
    rename_i pend' hperm
    have hcnt : ∀ n, reqCount w n (pend' ++ q') = reqCount w n (st.pending ++ []) := by
      intro n
      unfold reqCount
      rw [List.append_nil, hperm.countP_eq, List.countP_append, List.countP_append]
      omega
    refine ⟨hnd, fun n => ?_, fun n hn => ?_, hdis⟩
    · have h1 := hle n
      rw [← hcnt n] at h1
      exact h1
    · have h1 : 1 ≤ reqCount w n (pend' ++ q') := hn
      rw [hcnt n] at h1
      exact hmem n h1
  case proc =>
    rename_i req hstep
    cases req with
    | package r =>
      rcases stepReq_package_cases w st r st' hstep with
        ⟨heq, _⟩ | ⟨files, f, _, _, heq⟩ <;> subst heq
      · refine ⟨hnd, fun n => ?_, fun n hn => ?_, hdis⟩
        · have h1 := hle n
          rw [reqCount_middle] at h1
          omega
        · refine hmem n ?_
          rw [reqCount_middle]
          omega
      · have hcnteq : ∀ n, reqCount w n ((st.pending ++ [Request.version r f]) ++ q') =
            reqCount w n (st.pending ++ (Request.package r :: q')) := by
          intro n
          rw [reqCount_append_single, reqCount_middle]
          rfl
        refine ⟨hnd, fun n => ?_, fun n hn => ?_, hdis⟩
        · have h1 := hle n
          rw [← hcnteq n] at h1
          exact h1
        · refine hmem n ?_
          rw [← hcnteq n]
          exact hn
    | version r f =>
      obtain ⟨md, hmd, heq⟩ := stepReq_version_cases w st r f st' hstep
      subst heq
      refine foldl_preserve (P := fun s => CountInv w s q') (enqueueDep w r)
        md.requires_dist _ (fun s dep _ hp => enqueueDep_countInv w r q' s dep hp) ?_
      have hhead : reqName w (Request.version r f) = w.normalize r.name := rfl
      refine ⟨hnd.erase _, fun n => ?_, fun n hn => ?_, fun n hn => ?_⟩
      · have h1 := hle n
        rw [reqCount_middle] at h1
        show reqCount w n (st.pending ++ q') ≤ 1
        omega
      · have h1 : 1 ≤ reqCount w n (st.pending ++ q') := hn
        have h2 := hle n
        rw [reqCount_middle, hhead] at h2
        have hne : n ≠ w.normalize r.name := by
          intro hcontra
          subst hcontra
          rw [if_pos rfl] at h2
          omega
        exact (List.Nodup.mem_erase_iff hnd).mpr
          ⟨hne, hmem n (by rw [reqCount_middle]; omega)⟩
      · have hne := (hnd.mem_erase_iff.mp hn).1
        have hmm := (hnd.mem_erase_iff.mp hn).2
        show resLookup n (resInsert (w.normalize r.name) md.version st.resolution) = none
        rw [resLookup_resInsert_ne _ _ _ _ fun hh => hne hh.symm]
        exact hdis n hmm

theorem reach_countInv (w : World) (roots : List Requirement)
    (hd : DistinctRoots w roots) (st : State) (q : List Request)
    (h : Reach w roots st q) : CountInv w st q := by
  induction h with
  | init => exact seed_countInv w roots hd
  | next hr hs ih => exact step_countInv w hs ih

/-- C2 (amended): provided the root requirements have pairwise distinct
normalized names, the resolution is append-only during a run: whenever a
step of the run (a batch arrival or the processing of one response) takes
an observable state to its successor, every entry (name, version) present
before is still present, unchanged, after — entries are never overwritten
or removed.  With duplicate root requirements for one normalized name each
duplicate produces its own request chain and the code does overwrite; see
`duplicate_roots_overwrite_entry`. -/
theorem append_only_distinct_roots (w : World) (roots : List Requirement)
    (hd : DistinctRoots w roots) {st : State} {q : List Request} {st' : State}
    {q' : List Request} (hr : Reach w roots st q) (hs : Step w st q st' q') :
    ∀ n v, resLookup n st.resolution = some v →
      resLookup n st'.resolution = some v := by
  obtain ⟨hnd, hle, hmem, hdis⟩ := reach_countInv w roots hd st q hr
  cases hs
  case select =>
    rename_i pend' hperm
    exact fun n v hv => hv
  case proc =>
    rename_i req hstep
    cases req with
    | package r =>
      rcases stepReq_package_cases w st r st' hstep with
        ⟨heq, _⟩ | ⟨files, f, _, _, heq⟩ <;> subst heq
      · exact fun n v hv => hv
      · exact fun n v hv => hv
    | version r f =>
      obtain ⟨md, hmd, heq⟩ := stepReq_version_cases w st r f st' hstep
      subst heq
      intro n v hv
      have hcnt : 1 ≤ reqCount w (w.normalize r.name)
          (st.pending ++ (Request.version r f :: q')) := by
        rw [reqCount_middle]
        have : reqName w (Request.version r f) = w.normalize r.name := rfl
        rw [this, if_pos rfl]
        omega
      have hn0 : w.normalize r.name ∈ st.inFlight := hmem _ hcnt
      have h0 : resLookup (w.normalize r.name) st.resolution = none := hdis _ hn0
      have hne : w.normalize r.name ≠ n := by
        intro hcontra
        rw [hcontra] at h0
        rw [h0] at hv
        exact Option.noConfusion hv
      rw [enqueueDeps_resolution]
      show resLookup n (resInsert (w.normalize r.name) md.version st.resolution) = some v
      rw [resLookup_resInsert_ne _ _ _ _ hne]
      exact hv

/-! ### The canonical-pin invariant (dependency-free, distinct roots) -/

theorem step_canonInv (w : World) (roots : List Requirement)
    (hd : DistinctRoots w roots) (hdep : DepFree w) {st : State}
    {q : List Request} {st' : State} {q' : List Request}
    (hs : Step w st q st' q') (h : CanonInv w roots st q) :
    CanonInv w roots st' q' := by
  obtain ⟨ha, hb, hc⟩ := h
  cases hs
  case select =>
    rename_i pend' hperm
    refine ⟨ha, hb, fun req hreq => hc req ?_⟩
    rw [List.append_nil, hperm.mem_iff]
    rcases List.mem_append.mp hreq with h1 | h1
    · exact List.mem_append.mpr (Or.inr h1)
    · exact List.mem_append.mpr (Or.inl h1)
  case proc =>
    rename_i req hstep
    cases req with
    | package r =>
      have hhead := hc (Request.package r)
        (List.mem_append.mpr (Or.inr (List.mem_cons_self _ _)))
      have hroot : r ∈ roots := hhead.1 r rfl
      rcases stepReq_package_cases w st r st' hstep with
        ⟨heq, _⟩ | ⟨files, f, hl, hsel, heq⟩ <;> subst heq
      · refine ⟨ha, hb, fun req2 hreq2 => hc req2 ?_⟩
        rcases List.mem_append.mp hreq2 with h1 | h1
        · exact List.mem_append.mpr (Or.inl h1)
        · exact List.mem_append.mpr (Or.inr (List.mem_cons_of_mem _ h1))
      · refine ⟨ha, hb, fun req2 hreq2 => ?_⟩
        rcases List.mem_append.mp hreq2 with h1 | h1
        · rcases List.mem_append.mp h1 with h2 | h2
          · exact hc req2 (List.mem_append.mpr (Or.inl h2))
          · have h3 := List.mem_singleton.mp h2
            subst h3
            refine ⟨fun r2 habs => Request.noConfusion habs, fun r2 f2 heq2 => ?_⟩
            injection heq2 with e1 e2
            subst e1
            subst e2
            exact ⟨hroot, files, hl, hsel⟩
        · exact hc req2 (List.mem_append.mpr (Or.inr (List.mem_cons_of_mem _ h1)))
    | version r f =>
      have hhead := hc (Request.version r f)
        (List.mem_append.mpr (Or.inr (List.mem_cons_self _ _)))
      obtain ⟨hroot, files, hl, hsel⟩ := hhead.2 r f rfl
      obtain ⟨md, hmd, heq⟩ := stepReq_version_cases w st r f st' hstep
      have hreqd : md.requires_dist = [] := hdep f md hmd
      rw [hreqd, List.foldl_nil] at heq
      subst heq
      have hcan : canonical w r = some md.version := by
        simp only [canonical, hl, hsel, hmd]
      refine ⟨?_, ?_, ?_⟩
      · intro n v hv
        have hv' : resLookup n (resInsert (w.normalize r.name) md.version
            st.resolution) = some v := hv
        rw [resLookup_resInsert] at hv'
        by_cases hn : w.normalize r.name = n
        · rw [if_pos hn] at hv'
          exact ⟨r, hroot, hn.symm,
            hcan.trans (congrArg some (Option.some.inj hv'))⟩
        · rw [if_neg hn] at hv'
          exact ha n v hv'
      · intro r2 hr2
        by_cases hrr : w.normalize r2.name = w.normalize r.name
        · have hr2r : r2 = r := List.inj_on_of_nodup_map hd hr2 hroot hrr
          subst hr2r
          right
          refine ⟨md.version, hcan, ?_⟩
          show resLookup (w.normalize r2.name)
            (resInsert (w.normalize r2.name) md.version st.resolution) =
              some md.version
          exact resLookup_resInsert_self _ _ _
        · rcases hb r2 hr2 with ⟨hmm, hlk⟩ | ⟨v, hcv, hlk⟩
          · left
            constructor
            · show w.normalize r2.name ∈ st.inFlight.erase (w.normalize r.name)
              exact (List.mem_erase_of_ne hrr).mpr hmm
            · show resLookup (w.normalize r2.name)
                (resInsert (w.normalize r.name) md.version st.resolution) = none
              rw [resLookup_resInsert_ne _ _ _ _ fun hh => hrr hh.symm]
              exact hlk
          · right
            refine ⟨v, hcv, ?_⟩
            show resLookup (w.normalize r2.name)
              (resInsert (w.normalize r.name) md.version st.resolution) = some v
            rw [resLookup_resInsert_ne _ _ _ _ fun hh => hrr hh.symm]
            exact hlk
      · intro req2 hreq2
        refine hc req2 ?_
        rcases List.mem_append.mp hreq2 with h1 | h1
        · exact List.mem_append.mpr (Or.inl h1)
        · exact List.mem_append.mpr (Or.inr (List.mem_cons_of_mem _ h1))

theorem reach_canonInv (w : World) (roots : List Requirement)
    (hd : DistinctRoots w roots) (hdep : DepFree w) (st : State)
    (q : List Request) (h : Reach w roots st q) : CanonInv w roots st q := by
  induction h with
  | init =>
    refine ⟨?_, ?_, ?_⟩
    · intro n v hv
      rw [seedState_resolution] at hv
      exact Option.noConfusion hv
    · intro r hr
      left
      constructor
      · rw [seedState_inFlight_mem]
        exact List.mem_map_of_mem _ hr
      · rw [seedState_resolution]
        rfl
    · intro req hreq
      rw [List.append_nil, seedState_pending] at hreq
      obtain ⟨r', hr', heq⟩ := List.mem_map.mp hreq
      subst heq
      refine ⟨fun r2 h2 => ?_, fun r2 f2 h2 => Request.noConfusion h2⟩
      injection h2 with h3
      rw [← h3]
      exact hr'
  | next hr hs ih => exact step_canonInv w roots hd hdep hs ih

theorem resolve_ok_canonical (w : World) (roots : List Requirement)
    (hd : DistinctRoots w roots) (hdep : DepFree w) (sched : List (List Bool))
    (res : Resolution) (hok : resolve w roots sched = Outcome.ok res) :
    ∀ n, resLookup n res = rootsCanonical w roots n := by
  obtain ⟨st', hreach, hfl, hres⟩ := resolve_ok_reach w roots sched res hok
  subst hres
  obtain ⟨ha, hb, _⟩ := reach_canonInv w roots hd hdep st' [] hreach
  intro n
  cases hfind : roots.find? (fun r => w.normalize r.name == n) with
  | none =>
    simp only [rootsCanonical, hfind]
    rw [List.find?_eq_none] at hfind
    cases hl : resLookup n st'.resolution with
    | none => rfl
    | some v =>
      obtain ⟨r, hrmem, hn, _⟩ := ha n v hl
      have habs := hfind r hrmem
      rw [hn] at habs
      simp at habs
  | some r =>
    simp only [rootsCanonical, hfind]
    have hrmem := List.mem_of_find?_eq_some hfind
    have hrn : w.normalize r.name = n := by
      have h1 := List.find?_some hfind
      simpa using h1
    rcases hb r hrmem with ⟨hmem, _⟩ | ⟨v, hcan, hlook⟩
    · rw [hfl] at hmem
      exact absurd hmem (List.not_mem_nil _)
    · rw [hrn] at hlook
      rw [hlook, hcan]

/-- C1 (amended): for a fixed index state, environment, platform tag set,
and root requirement set whose roots have pairwise distinct normalized
names, and whose metadata documents declare no dependencies, any two runs
of resolve that complete successfully return resolutions with identical
contents (the same normalized-name-to-version mapping), regardless of the
arrival order of concurrent fetch responses — each is the canonical pin
map determined by the index alone.  Without these restrictions arrival
order can change the result: duplicate roots overwrite each other and
conflicting transitive constraints race for the in-flight slot (see
`arrival_order_changes_resolution`). -/
theorem resolution_order_independent_depfree (w : World)
    (roots : List Requirement) (hd : DistinctRoots w roots) (hdep : DepFree w)
    (s1 s2 : List (List Bool)) (r1 r2 : Resolution)
    (h1 : resolve w roots s1 = Outcome.ok r1)
    (h2 : resolve w roots s2 = Outcome.ok r2) :
    ∀ n, resLookup n r1 = resLookup n r2 := fun n =>
  (resolve_ok_canonical w roots hd hdep s1 r1 h1 n).trans
    (resolve_ok_canonical w roots hd hdep s2 r2 h2 n).symm

theorem resolution_order_independent_depfree_witness :
    resLookup "a" [("a", 1), ("b", 2)] = resLookup "a" [("b", 2), ("a", 1)] :=
  resolution_order_independent_depfree wPair [reqA, reqB]
    (by unfold DistinctRoots; decide)
    (by
      intro f md hmd
      simp only [wPair] at hmd
      split_ifs at hmd <;>
        first
          | (have he := Except.ok.inj hmd; rw [← he])
          | exact Except.noConfusion hmd)
    [[true, false], [false, true], [true, false], [true]]
    [[false, true], [false, true], [true], [true]]
    [("a", 1), ("b", 2)] [("b", 2), ("a", 1)] (by rfl) (by rfl) "a"

theorem append_only_distinct_roots_witness :
    resLookup "a" dSt6.resolution = some 1 := by
  have h0 : Reach wDemo [reqA] dSt0 [] := Reach.init
  have hp0 : dSt0.pending = [Request.package reqA] := rfl
  have h1 : Reach wDemo [reqA] dSt1 [Request.package reqA] :=
    h0.next (Step.select dSt0 [Request.package reqA] [] (by rw [hp0]; simp))
  have h2 : Reach wDemo [reqA] dSt2 [] :=
    h1.next (Step.proc dSt1 dSt2 (Request.package reqA) [] (by rfl))
  have hp2 : dSt2.pending = [Request.version reqA fileA] := rfl
  have h3 : Reach wDemo [reqA] dSt3 [Request.version reqA fileA] :=
    h2.next (Step.select dSt2 [Request.version reqA fileA] [] (by rw [hp2]; simp))
  have h4 : Reach wDemo [reqA] dSt4 [] :=
    h3.next (Step.proc dSt3 dSt4 (Request.version reqA fileA) [] (by rfl))
  have hp4 : dSt4.pending = [Request.package reqB] := rfl
  have h5 : Reach wDemo [reqA] dSt5 [Request.package reqB] :=
    h4.next (Step.select dSt4 [Request.package reqB] [] (by rw [hp4]; simp))
  exact append_only_distinct_roots wDemo [reqA] (by unfold DistinctRoots; decide) h5
    (Step.proc dSt5 dSt6 (Request.package reqB) [] (by rfl)) "a" 1 (by decide)

end PuffinResolve
